import Mathlib

set_option maxRecDepth 8000

/- Shallow embedding of src/compare_10k_app.py (the function get_10k_section and
   the browse requests it issues).  Strings are modelled as `List Char`; each
   Python regular-expression operation is modelled by an executable scanner with
   the leftmost / greedy / lazy backtracking semantics of the pattern it embeds.
   Whitespace, digits and case folding are modelled over the ASCII range. -/

/-- Python `\s` on the ASCII range: the six whitespace characters. -/
def pySpace (c : Char) : Bool :=
  c = ' ' || c = '\t' || c = '\n' || c = '\r' || c = '\x0b' || c = '\x0c'

/-- Case-insensitive (ASCII case folding, re.IGNORECASE) literal match of `pat`
against the front of `s`. -/
def ciStarts : List Char → List Char → Bool
  | [], _ => true
  | _ :: _, [] => false
  | p :: ps, c :: cs => (p.toLower == c.toLower) && ciStarts ps cs

/-- Case-sensitive literal match of `pat` against the front of `s`. -/
def csStarts : List Char → List Char → Bool
  | [], _ => true
  | _ :: _, [] => false
  | p :: ps, c :: cs => (p == c) && csStarts ps cs

/-- `pat` occurs (case-insensitively) somewhere in `s`. -/
def ciOccurs (pat : List Char) : List Char → Bool
  | [] => ciStarts pat []
  | c :: t => ciStarts pat (c :: t) || ciOccurs pat t

/-- Index of the first (leftmost) case-insensitive occurrence of `pat` in `s`,
the position at which `re.search` of an escaped literal with re.IGNORECASE
would match. -/
def ciFindIdx (pat : List Char) : List Char → Option Nat
  | [] => if ciStarts pat [] then some 0 else none
  | c :: t =>
      if ciStarts pat (c :: t) then some 0
      else (ciFindIdx pat t).map (· + 1)

/-- Python `str.strip` of leading whitespace followed by trailing whitespace
(ASCII whitespace). -/
def pyStrip (l : List Char) : List Char :=
  ((l.dropWhile pySpace).reverse.dropWhile pySpace).reverse

/-- Generic model of Python `re.sub(pattern, repl, s)` for the patterns used in
the source: the step function decides whether a match of the pattern starts at the
current position, returning the replacement text and the matched length
(always ≥ 1 for the patterns below).  The scanner moves left to right,
replaces non-overlapping matches and resumes right after each match, exactly
as `re.sub` does.  The fuel argument is initialised with the string length and
never runs out on a well-formed call. -/
def scanSub (step : List Char → Option (List Char × Nat)) : Nat → List Char → List Char
  | 0, s => s
  | _ + 1, [] => []
  | f + 1, c :: t =>
      match step (c :: t) with
      | some (r, n) => r ++ scanSub step f ((c :: t).drop n)
      | none => c :: scanSub step f t

/-- One re.sub pass with the fuel set to the string length, which a scanner
consuming at least one character per match never exhausts. -/
def runSub (step : List Char → Option (List Char × Nat)) (s : List Char) : List Char :=
  scanSub step s.length s

/-- Matcher for the pattern `\s+` of line 72: a maximal
whitespace run is replaced by a single space. -/
def wsRunStep (s : List Char) : Option (List Char × Nat) :=
  match s with
  | c :: t => if pySpace c then some ([' '], 1 + (t.takeWhile pySpace).length) else none
  | [] => none

/-- Line 72: re.sub of `\s+` to a single space over the fetched markup, then
str.replace of newline to space (a no-op after the sub but kept). -/
def normalizeDoc (doc : List Char) : List Char :=
  (runSub wsRunStep doc).map (fun c => if c = '\n' then ' ' else c)

/-- Matcher for `<[^>]*>` (line 100): from a `<`, `[^>]*` runs greedily up to
the first `>`; if no `>` follows there is no match at this position. -/
def tagStep (s : List Char) : Option (List Char × Nat) :=
  match s with
  | '<' :: t =>
      if t.contains '>' then some ([], 2 + (t.takeWhile (fun c => c != '>')).length)
      else none
  | _ => none

/-- Matcher for the literal `&nbsp;` of the str.replace call on line 101
(case-sensitive, replaced by a single space). -/
def nbspStep (s : List Char) : Option (List Char × Nat) :=
  if csStarts "&nbsp;".data s then some ([' '], 6) else none

/-- Matcher for `&#\d+;` (line 102): `&`, `#`, a maximal nonempty digit run,
then `;`. -/
def entityStep (s : List Char) : Option (List Char × Nat) :=
  match s with
  | '&' :: '#' :: t =>
      let ds := t.takeWhile Char.isDigit
      if ds.isEmpty then none
      else
        match t.drop ds.length with
        | ';' :: _ => some ([], 2 + ds.length + 1)
        | _ => none
  | _ => none

/-- Matcher for `Page\s+\d+` with re.IGNORECASE (line 103): after the literal,
`\s+` runs greedily and must be followed by a digit (backtracking into the
whitespace cannot succeed), then `\d+` is maximal. -/
def pageStep (s : List Char) : Option (List Char × Nat) :=
  if ciStarts "Page".data s then
    let r := s.drop 4
    let ws := r.takeWhile pySpace
    if ws.isEmpty then none
    else
      let ds := (r.drop ws.length).takeWhile Char.isDigit
      if ds.isEmpty then none else some ([], 4 + ws.length + ds.length)
  else none

/-- Matcher for `\s*\d+\s*` (line 104): a match starts here exactly when the
maximal whitespace run from this position is followed by a digit; the digit run
and the trailing whitespace are maximal.  The whole match is replaced by one
space. -/
def numStep (s : List Char) : Option (List Char × Nat) :=
  let ws := s.takeWhile pySpace
  let r := s.drop ws.length
  let ds := r.takeWhile Char.isDigit
  if ds.isEmpty then none
  else some ([' '], ws.length + ds.length + ((r.drop ds.length).takeWhile pySpace).length)

/-- Matcher for the literal `Table of Contents` with re.IGNORECASE (line 105). -/
def tocStep (s : List Char) : Option (List Char × Nat) :=
  if ciStarts "Table of Contents".data s then some ([], 17) else none

/-- Matcher for `Item\s+\d+[A-Z]?\.\s+[A-Z][a-zA-Z\s]+` (line 106, no
IGNORECASE flag, so `Item` and the character classes are case sensitive):
literal `Item`, nonempty whitespace, nonempty digit run, an optional uppercase
letter (taken greedily; if taking it leaves no `.`, the empty alternative
needs the letter itself to be `.`, which fails), a `.`, nonempty whitespace,
an uppercase letter, then a maximal nonempty run of letters and whitespace. -/
def itemHdrStep (s : List Char) : Option (List Char × Nat) :=
  if csStarts "Item".data s then
    let r := s.drop 4
    let ws := r.takeWhile pySpace
    if ws.isEmpty then none
    else
      let r2 := r.drop ws.length
      let ds := r2.takeWhile Char.isDigit
      if ds.isEmpty then none
      else
        let r3 := r2.drop ds.length
        let pre := 4 + ws.length + ds.length
        match r3 with
        | 'A' :: r4 => itemHdrAfterLetter pre r4
        | 'B' :: r4 => itemHdrAfterLetter pre r4
        | c :: r4 =>
            if c.isUpper then itemHdrAfterLetter pre r4
            else if c = '.' then itemHdrAfterDot (pre + 1) r4
            else none
        | [] => none
  else none
where
  /-- after the optional `[A-Z]`: a `.` must follow, else the position fails. -/
  itemHdrAfterLetter (pre : Nat) : List Char → Option (List Char × Nat)
    | '.' :: r5 => itemHdrAfterDot (pre + 2) r5
    | _ => none
  /-- after the `.`: `\s+[A-Z][a-zA-Z\s]+`, all runs maximal. -/
  itemHdrAfterDot (pre : Nat) (r : List Char) : Option (List Char × Nat) :=
    let ws2 := r.takeWhile pySpace
    if ws2.isEmpty then none
    else
      match r.drop ws2.length with
      | c :: r6 =>
          if c.isUpper then
            let body := r6.takeWhile (fun d => d.isAlpha || pySpace d)
            if body.isEmpty then none
            else some ([], pre + ws2.length + 1 + body.length)
          else none
      | [] => none

/-- Matcher for `\s{2,}` (line 107): a maximal whitespace run of length at
least two, replaced by a single space. -/
def multiWsStep (s : List Char) : Option (List Char × Nat) :=
  match s with
  | c :: d :: t =>
      if pySpace c && pySpace d then some ([' '], 2 + (t.takeWhile pySpace).length)
      else none
  | _ => none

/-- Lines 100–107: the cleaning pass applied to the extracted slice, in source
order: strip tags, replace `&nbsp;`, drop numeric entities, drop
`Page <n>`, replace digit runs (with surrounding whitespace) by a space, drop
`Table of Contents`, drop residual item headers, collapse whitespace runs, and
strip. -/
def cleanAll (t0 : List Char) : List Char :=
  pyStrip (scanSub multiWsStep t0.length (scanSub itemHdrStep t0.length
    (scanSub tocStep t0.length (scanSub numStep t0.length (scanSub pageStep t0.length
      (scanSub entityStep t0.length (scanSub nbspStep t0.length
        (scanSub tagStep t0.length t0))))))))

/-- The end-boundary alternative `Item\s+\d+[A-Z]?\.\s+` of the section regex
(line 89, with re.IGNORECASE, so the letter class matches any ASCII letter):
does it match a prefix of `s`? -/
def itemBoundaryAt (s : List Char) : Bool :=
  if ciStarts "Item".data s then
    let r := s.drop 4
    let ws := r.takeWhile pySpace
    if ws.isEmpty then false
    else
      let r2 := r.drop ws.length
      let ds := r2.takeWhile Char.isDigit
      if ds.isEmpty then false
      else
        match r2.drop ds.length with
        | c :: r4 =>
            if c.isAlpha then
              match r4 with
              | '.' :: r5 =>
                  match r5 with
                  | d :: _ => pySpace d
                  | [] => false
              | _ => false
            else if c = '.' then
              match r4 with
              | d :: _ => pySpace d
              | [] => false
            else false
        | [] => false
  else false

/-- Position of the first match of the boundary pattern in `s`, the place where
the lazy group `(.*?)` of the section regex stops. -/
def findBoundary : List Char → Option Nat
  | [] => none
  | c :: t =>
      if itemBoundaryAt (c :: t) then some 0
      else (findBoundary t).map (· + 1)

/-- Lines 88–97: `re.search` of
`re.escape(section_name)` followed by `\s*(.*?)(?:Item\s+\d+[A-Z]?\.\s+|$)` with
re.DOTALL and re.IGNORECASE over the normalized document, returning group(1)
(before the `.strip()` of line 97).  The leftmost match starts at the first
case-insensitive occurrence of the literal section name; `\s*` is maximal
(the continuation, ending in `|$`, never fails); the lazy group stops at the
first later match of the boundary pattern, or at end of input. -/
def sectionSlice (name norm : List Char) : Option (List Char) :=
  match ciFindIdx name norm with
  | none => none
  | some i =>
      let cap0 := (norm.drop (i + name.length)).dropWhile pySpace
      match findBoundary cap0 with
      | some k => some (cap0.take k)
      | none => some cap0

/-- Lines 72 and 88–107: the Extractor.  Returns the cleaned section text, or
`none` when the section is not found or the cleaned text is empty (the code
then falls through to the same failure message, line 124). -/
def extractSection (sectionName doc : List Char) : Option (List Char) :=
  match sectionSlice sectionName (normalizeDoc doc) with
  | none => none
  | some cap =>
      let t := cleanAll (pyStrip cap)
      if t.isEmpty then none else some t

/-- Tokens of the linear regular expressions of the source, matched with
Python backtracking semantics: literals (case-insensitive, the patterns below
carry re.IGNORECASE), greedy character-class `*` and `+`, a single class
character, the lazy dotall `.*?`, and the one capture group. -/
inductive Tok where
  | lit (l : List Char)
  | one (p : Char → Bool)
  | star (p : Char → Bool)
  | plus (p : Char → Bool)
  | lazyAny
  | grpOpen
  | grpClose

/-- Capture state threaded through the matcher: before the group, inside it
(accumulating its text), or after it. -/
inductive CapSt where
  | pre
  | inside (acc : List Char)
  | post (cap : List Char)

/-- Characters consumed while the group is open are appended to the capture. -/
def CapSt.push (st : CapSt) (cs : List Char) : CapSt :=
  match st with
  | .inside acc => .inside (acc ++ cs)
  | st => st

def CapSt.result : CapSt → Option (List Char)
  | .pre => none
  | .inside acc => some acc
  | .post cap => some cap

/-- Backtracking matcher for a token sequence anchored at the front of `s`
(trailing input may remain): greedy classes try the longest munch first, the
lazy dot tries the shortest extension first, exactly the Python order.  Returns
the group capture on success. -/
def toksGo : List Tok → List Char → CapSt → Option (Option (List Char))
  | [], _, st => some st.result
  | .lit l :: rest, s, st =>
      if ciStarts l s then toksGo rest (s.drop l.length) (st.push (s.take l.length))
      else none
  | .one p :: rest, s, st =>
      match s with
      | [] => none
      | c :: t => if p c then toksGo rest t (st.push [c]) else none
  | .star p :: rest, s, st =>
      ((List.range ((s.takeWhile p).length + 1)).reverse).findSome?
        (fun k => toksGo rest (s.drop k) (st.push (s.take k)))
  | .plus p :: rest, s, st =>
      (((List.range (s.takeWhile p).length).map (· + 1)).reverse).findSome?
        (fun k => toksGo rest (s.drop k) (st.push (s.take k)))
  | .lazyAny :: rest, s, st =>
      (List.range (s.length + 1)).findSome?
        (fun k => toksGo rest (s.drop k) (st.push (s.take k)))
  | .grpOpen :: rest, s, _st => toksGo rest s (.inside [])
  | .grpClose :: rest, s, st =>
      match st with
      | .inside acc => toksGo rest s (.post acc)
      | _ => none

/-- `re.search`: leftmost starting position at which the token sequence
matches. -/
def reSearch (toks : List Tok) : List Char → Option (Option (List Char))
  | [] => toksGo toks [] .pre
  | c :: t =>
      match toksGo toks (c :: t) .pre with
      | some r => some r
      | none => reSearch toks t

def notGt (c : Char) : Bool := c != '>'

def notQuote (c : Char) : Bool := c != '"'

/-- Lines 42–46: the filing regex
`<tr[^>]*>.*?<td[^>]*>10-K<\/td>.*?<td[^>]*><a\s+href="(\/Archives\\/edgar\\/data\\/[^"]+\.htm)"[^>]*>.*?<\/td>.*?<td[^>]*>\s*` +
`re.escape(str(year))` + `-\d{2}-\d{2}\s*<\/td>.*?<\/tr>` with re.DOTALL and
re.IGNORECASE, tokenized.  In the raw pattern string `\\/` is an escaped
backslash followed by `/`, so the group literal demands an actual backslash
before each inner slash of the Archives path. -/
def filingToks (year : Nat) : List Tok :=
  [ .lit "<tr".data, .star notGt, .lit ">".data,
    .lazyAny,
    .lit "<td".data, .star notGt, .lit ">10-K</td>".data,
    .lazyAny,
    .lit "<td".data, .star notGt, .lit "><a".data, .plus pySpace, .lit "href=\"".data,
    .grpOpen,
    .lit "/Archives\\/edgar\\/data\\/".data,
    .plus notQuote,
    .lit ".htm".data,
    .grpClose,
    .lit "\"".data, .star notGt, .lit ">".data,
    .lazyAny,
    .lit "</td>".data,
    .lazyAny,
    .lit "<td".data, .star notGt, .lit ">".data, .star pySpace,
    .lit ((toString year).data ++ "-".data),
    .one Char.isDigit, .one Char.isDigit, .lit "-".data,
    .one Char.isDigit, .one Char.isDigit,
    .star pySpace, .lit "</td>".data,
    .lazyAny, .lit "</tr>".data ]

/-- Lines 48–53: the Locator scan of the listing page.  `target_10k_url` is
set only when the regex matches and its group(1) is a nonempty (truthy)
string. -/
def filingSearch (listing : List Char) (year : Nat) : Option (List Char) :=
  match reSearch (filingToks year) listing with
  | some (some cap) => if cap.isEmpty then none else some cap
  | some none => none
  | none => none

/-- Lines 112–115: re.search of the pattern `<title>(.*?)</title>` over the raw
markup with re.IGNORECASE.
Without re.DOTALL the lazy group cannot cross a newline, so a start position
whose closing tag lies beyond a newline fails and the scan moves on. -/
def titleSearch : List Char → Option (List Char)
  | [] => none
  | c :: t =>
      if ciStarts "<title>".data (c :: t) then
        match titleClose ((c :: t).drop 7) with
        | some cap => some cap
        | none => titleSearch t
      else titleSearch t
where
  /-- the shortest newline-free extension up to a closing `</title>`. -/
  titleClose : List Char → Option (List Char)
    | [] => none
    | c :: t =>
        if ciStarts "</title>".data (c :: t) then some []
        else if c = '\n' then none
        else (titleClose t).map (c :: ·)

/-- Line 116: re.match of the pattern `(.*?)(?:10-K|FORM 10-K)` on the title
with re.IGNORECASE:
group(1) is everything before the first case-insensitive occurrence of `10-K`
(or `FORM 10-K`, which can only win at a position where `10-K` itself does not
start); `none` when neither occurs. -/
def tenKSplit : List Char → Option (List Char)
  | [] => none
  | c :: t =>
      if ciStarts "10-K".data (c :: t) || ciStarts "FORM 10-K".data (c :: t) then some []
      else (tenKSplit t).map (c :: ·)

/-- Lines 110–120: company name from the document title, defaulting to the
uppercased ticker. -/
def companyName (doc ticker : List Char) : List Char :=
  match titleSearch doc with
  | none => ticker.map Char.toUpper
  | some ttl =>
      match tenKSplit ttl with
      | some g => pyStrip g
      | none => pyStrip ttl

/-- Line 127: the message of the outermost `except` clause, with `{e}` the
formatted exception. -/
def errorMsg (e : List Char) : List Char :=
  "An error occurred: ".data ++ e ++
    ". This might be due to network issues, an invalid ticker/year, or a change in SEC EDGAR".data ++ [Char.ofNat 39] ++ "s website structure. Please try again.".data

/-- Line 54: the "not found" message of the Locator. -/
def notFoundMsg (ticker : List Char) (year : Nat) : List Char :=
  "Could not find a 10-K filing for ".data ++ ticker ++ " in fiscal year ".data ++
    (toString year).data ++
    " on SEC EDGAR. Please ensure the ticker and year are correct, and that the filing exists on EDGAR.".data

/-- Line 124: the "could not extract" message (the section name is quoted
between two apostrophes, `Char.ofNat 39`). -/
def couldNotExtractMsg (sectionName : List Char) : List Char :=
  "Could not extract ".data ++ [Char.ofNat 39] ++ sectionName ++ [Char.ofNat 39] ++
    " from the 10-K. The section structure might be different or the content is missing.".data

/-- The outcomes of the two `browsing.browse` calls for one invocation: the
fetched markup, or the formatted exception a failed fetch raises (caught by
the outermost `try`). -/
structure BrowseEnv where
  listing : Except (List Char) (List Char)
  filingDoc : Except (List Char) (List Char)

/-- Lines 15–127: `get_10k_section(ticker, year, section_name)`.  The whole
body runs under one `try`; any exception from a fetch becomes
`(None, errorMsg)`.  Otherwise: Locator (lines 42–54), Fetcher (line 60),
Extractor (lines 72–107), and the success/failure return (lines 109–124). -/
def get_10k_section (env : BrowseEnv) (ticker : List Char) (year : Nat)
    (sectionName : List Char) : Option (List Char) × List Char :=
  match env.listing with
  | .error e => (none, errorMsg e)
  | .ok lst =>
      match filingSearch lst year with
      | none => (none, notFoundMsg ticker year)
      | some _path =>
          match env.filingDoc with
          | .error e => (none, errorMsg e)
          | .ok doc =>
              match extractSection sectionName doc with
              | none => (none, couldNotExtractMsg sectionName)
              | some t => (some t, companyName doc ticker)

/-- An outbound request of the pipeline: what the code passes to
`browsing.browse`, plus the header list such a request carries.  The calls on
lines 31 and 60 pass only `query` and `url`; no header is ever supplied. -/
structure BrowseRequest where
  query : List Char
  url : List Char
  headers : List (List Char × List Char)

/-- Line 26: the EDGAR company-search URL. -/
def edgarCompanySearchUrl (ticker : List Char) : List Char :=
  "https://www.sec.gov/cgi-bin/browse-edgar?action=getcompany&CIK=".data ++ ticker ++
    "&type=10-K&owner=exclude&count=100".data

/-- Line 31: the listing fetch, `browsing.browse(query=f"Fetch EDGAR search
results for {ticker} {year} 10-K", url=edgar_company_search_url)`. -/
def listingRequest (ticker : List Char) (year : Nat) : BrowseRequest :=
  { query := "Fetch EDGAR search results for ".data ++ ticker ++ " ".data ++
      (toString year).data ++ " 10-K".data
    url := edgarCompanySearchUrl ticker
    headers := [] }

/-- Line 60: the filing-document fetch, `browsing.browse(query=f"Fetch full
10-K content from {target_10k_url}", url=target_10k_url)`. -/
def docRequest (targetUrl : List Char) : BrowseRequest :=
  { query := "Fetch full 10-K content from ".data ++ targetUrl
    url := targetUrl
    headers := [] }

/-- Does a request carry a client-identifier (User-Agent) header? -/
def hasUserAgent (r : BrowseRequest) : Bool :=
  r.headers.any (fun h => h.1 = "User-Agent".data)

/- ### Correctness of the leftmost searches -/

theorem ciStarts_nil_false (pat : List Char) (h : pat ≠ []) : ciStarts pat [] = false := by
  cases pat with
  | nil => exact absurd rfl h
  | cons p ps => rfl

theorem ciOccurs_of_ciStarts {pat s : List Char} (h : ciStarts pat s = true) :
    ciOccurs pat s = true := by
  cases s with
  | nil => simpa [ciOccurs] using h
  | cons c t => simp [ciOccurs, h]

theorem ciOccurs_of_drop {pat : List Char} :
    ∀ (s : List Char) (j : Nat), ciOccurs pat (s.drop j) = true → ciOccurs pat s = true := by
  intro s
  induction s with
  | nil => intro j h; simpa using h
  | cons c t ih =>
      intro j h
      cases j with
      | zero => simpa using h
      | succ j =>
          simp only [List.drop_succ_cons] at h
          simp [ciOccurs, ih j h]

theorem ciFindIdx_eq_some {pat : List Char} :
    ∀ (s : List Char) (i : Nat),
      (∀ j < i, ciStarts pat (s.drop j) = false) → ciStarts pat (s.drop i) = true →
      ciFindIdx pat s = some i := by
  intro s
  induction s with
  | nil =>
      intro i h1 h2
      cases i with
      | zero => simp only [List.drop_nil] at h2; simp [ciFindIdx, h2]
      | succ i =>
          exfalso
          have := h1 0 (Nat.succ_pos i)
          simp only [List.drop_nil] at this h2
          simp [this] at h2
  | cons c t ih =>
      intro i h1 h2
      cases i with
      | zero =>
          simp only [List.drop_zero] at h2
          simp [ciFindIdx, h2]
      | succ i =>
          have h0 : ciStarts pat (c :: t) = false := by
            have := h1 0 (Nat.succ_pos i)
            simpa using this
          have ht : ciFindIdx pat t = some i := by
            apply ih
            · intro j hj
              have := h1 (j + 1) (by omega)
              simpa [List.drop_succ_cons] using this
            · simpa [List.drop_succ_cons] using h2
          simp [ciFindIdx, h0, ht]

theorem ciFindIdx_first {pat : List Char} :
    ∀ (s : List Char) (i : Nat), ciFindIdx pat s = some i →
      ciStarts pat (s.drop i) = true ∧ ∀ j < i, ciStarts pat (s.drop j) = false := by
  intro s
  induction s with
  | nil =>
      intro i h
      rcases h0 : ciStarts pat [] with _ | _
      · simp only [ciFindIdx, h0, Bool.false_eq_true, if_false] at h
        exact absurd h (by simp)
      · simp only [ciFindIdx, h0, if_true, Option.some.injEq] at h
        subst h
        exact ⟨by simpa using h0, by omega⟩
  | cons c t ih =>
      intro i h
      rcases h0 : ciStarts pat (c :: t) with _ | _
      · simp only [ciFindIdx, h0, Bool.false_eq_true, if_false, Option.map_eq_some'] at h
        obtain ⟨i', hi', rfl⟩ := h
        obtain ⟨ha, hb⟩ := ih i' hi'
        refine ⟨by simpa [List.drop_succ_cons] using ha, ?_⟩
        intro j hj
        cases j with
        | zero => simpa using h0
        | succ j =>
            have := hb j (by omega)
            simpa [List.drop_succ_cons] using this
      · simp only [ciFindIdx, h0, if_true, Option.some.injEq] at h
        subst h
        exact ⟨by simpa using h0, by omega⟩

theorem ciFindIdx_eq_none {pat : List Char} (hne : pat ≠ []) :
    ∀ s : List Char, (∀ j < s.length, ciStarts pat (s.drop j) = false) →
      ciFindIdx pat s = none := by
  intro s
  induction s with
  | nil => intro _; simp [ciFindIdx, ciStarts_nil_false pat hne]
  | cons c t ih =>
      intro h
      have h0 : ciStarts pat (c :: t) = false := by simpa using h 0 (by simp)
      have ht : ciFindIdx pat t = none := by
        apply ih
        intro j hj
        have := h (j + 1) (by simpa using Nat.succ_lt_succ hj)
        simpa [List.drop_succ_cons] using this
      simp [ciFindIdx, h0, ht]

theorem itemBoundaryAt_nil : itemBoundaryAt [] = false := by decide

theorem findBoundary_eq_some :
    ∀ (s : List Char) (k : Nat),
      (∀ j < k, itemBoundaryAt (s.drop j) = false) → itemBoundaryAt (s.drop k) = true →
      findBoundary s = some k := by
  intro s
  induction s with
  | nil =>
      intro k h1 h2
      cases k with
      | zero => simp only [List.drop_nil] at h2; simp [itemBoundaryAt_nil] at h2
      | succ k => simp only [List.drop_nil] at h2; simp [itemBoundaryAt_nil] at h2
  | cons c t ih =>
      intro k h1 h2
      cases k with
      | zero =>
          simp only [List.drop_zero] at h2
          simp [findBoundary, h2]
      | succ k =>
          have h0 : itemBoundaryAt (c :: t) = false := by simpa using h1 0 (Nat.succ_pos k)
          have ht : findBoundary t = some k := by
            apply ih
            · intro j hj
              have := h1 (j + 1) (by omega)
              simpa [List.drop_succ_cons] using this
            · simpa [List.drop_succ_cons] using h2
          simp [findBoundary, h0, ht]

theorem findBoundary_eq_none :
    ∀ s : List Char, (∀ j < s.length, itemBoundaryAt (s.drop j) = false) →
      findBoundary s = none := by
  intro s
  induction s with
  | nil => intro _; simp [findBoundary]
  | cons c t ih =>
      intro h
      have h0 : itemBoundaryAt (c :: t) = false := by simpa using h 0 (by simp)
      have ht : findBoundary t = none := by
        apply ih
        intro j hj
        have := h (j + 1) (by simpa using Nat.succ_lt_succ hj)
        simpa [List.drop_succ_cons] using this
      simp [findBoundary, h0, ht]

/-- The section regex search, under an explicit decomposition of the
normalized document at the first case-insensitive occurrence of the section
name: the capture starts after the name and its following whitespace and runs
to the first later boundary match. -/
theorem sectionSlice_decomp (name A H R : List Char) (hlen : H.length = name.length)
    (hH : ciStarts name (H ++ R) = true)
    (hfirst : ∀ j < A.length, ciStarts name ((A ++ H ++ R).drop j) = false) :
    sectionSlice name (A ++ H ++ R) =
      match findBoundary (R.dropWhile pySpace) with
      | some k => some ((R.dropWhile pySpace).take k)
      | none => some (R.dropWhile pySpace) := by
  have hassoc : A ++ H ++ R = A ++ (H ++ R) := by simp
  have hdropA : (A ++ H ++ R).drop A.length = H ++ R := by
    rw [hassoc]; exact List.drop_left A (H ++ R)
  have hfind : ciFindIdx name (A ++ H ++ R) = some A.length := by
    apply ciFindIdx_eq_some
    · exact hfirst
    · rw [hdropA]; exact hH
  have hdropAH : (A ++ H ++ R).drop (A.length + name.length) = R := by
    rw [hassoc, List.drop_append name.length, ← hlen]
    exact List.drop_left H R
  simp only [sectionSlice, hfind, hdropAH]

/- ### Generic facts about the re.sub scanners -/

theorem wsRunStep_inv {u r : List Char} {n : Nat} (h : wsRunStep u = some (r, n)) :
    (r = [] ∨ r = [' ']) ∧ 1 ≤ n := by
  cases u with
  | nil => simp [wsRunStep] at h
  | cons c t =>
      simp only [wsRunStep] at h
      split at h
      · simp only [Option.some.injEq, Prod.mk.injEq] at h
        obtain ⟨hr, hn⟩ := h
        exact ⟨Or.inr hr.symm, by omega⟩
      · exact absurd h (by simp)

theorem tagStep_inv {u r : List Char} {n : Nat} (h : tagStep u = some (r, n)) :
    r = [] ∧ 1 ≤ n := by
  unfold tagStep at h
  split at h
  · split at h
    · simp only [Option.some.injEq, Prod.mk.injEq] at h
      obtain ⟨hr, hn⟩ := h
      exact ⟨hr.symm, by omega⟩
    · exact absurd h (by simp)
  · exact absurd h (by simp)

theorem nbspStep_inv {u r : List Char} {n : Nat} (h : nbspStep u = some (r, n)) :
    (r = [] ∨ r = [' ']) ∧ 1 ≤ n := by
  unfold nbspStep at h
  split at h
  · simp only [Option.some.injEq, Prod.mk.injEq] at h
    obtain ⟨hr, hn⟩ := h
    exact ⟨Or.inr hr.symm, by omega⟩
  · exact absurd h (by simp)

theorem entityStep_inv {u r : List Char} {n : Nat} (h : entityStep u = some (r, n)) :
    r = [] ∧ 1 ≤ n := by
  simp only [entityStep] at h
  split at h
  · split at h
    · exact absurd h (by simp)
    · split at h
      · simp only [Option.some.injEq, Prod.mk.injEq] at h
        obtain ⟨hr, hn⟩ := h
        exact ⟨hr.symm, by omega⟩
      · exact absurd h (by simp)
  · exact absurd h (by simp)

theorem pageStep_inv {u r : List Char} {n : Nat} (h : pageStep u = some (r, n)) :
    r = [] ∧ 1 ≤ n := by
  simp only [pageStep] at h
  split at h
  · split at h
    · exact absurd h (by simp)
    · split at h
      · exact absurd h (by simp)
      · simp only [Option.some.injEq, Prod.mk.injEq] at h
        obtain ⟨hr, hn⟩ := h
        exact ⟨hr.symm, by omega⟩
  · exact absurd h (by simp)

theorem numStep_inv {u r : List Char} {n : Nat} (h : numStep u = some (r, n)) :
    (r = [] ∨ r = [' ']) ∧ 1 ≤ n := by
  simp only [numStep] at h
  split at h
  · exact absurd h (by simp)
  · rename_i hds
    simp only [Option.some.injEq, Prod.mk.injEq] at h
    obtain ⟨hr, hn⟩ := h
    refine ⟨Or.inr hr.symm, ?_⟩
    have : (((u.drop (u.takeWhile pySpace).length).takeWhile Char.isDigit)).length ≠ 0 := by
      intro h0
      exact hds (List.isEmpty_iff.mpr (List.length_eq_zero.mp h0))
    omega

theorem tocStep_inv {u r : List Char} {n : Nat} (h : tocStep u = some (r, n)) :
    r = [] ∧ 1 ≤ n := by
  unfold tocStep at h
  split at h
  · simp only [Option.some.injEq, Prod.mk.injEq] at h
    obtain ⟨hr, hn⟩ := h
    exact ⟨hr.symm, by omega⟩
  · exact absurd h (by simp)

theorem itemHdrAfterDot_inv {pre : Nat} {u r : List Char} {n : Nat}
    (h : itemHdrStep.itemHdrAfterDot pre u = some (r, n)) : r = [] ∧ pre ≤ n := by
  simp only [itemHdrStep.itemHdrAfterDot] at h
  split at h
  · exact absurd h (by simp)
  · split at h
    · split at h
      · split at h
        · exact absurd h (by simp)
        · simp only [Option.some.injEq, Prod.mk.injEq] at h
          obtain ⟨hr, hn⟩ := h
          exact ⟨hr.symm, by omega⟩
      · exact absurd h (by simp)
    · exact absurd h (by simp)

theorem itemHdrAfterLetter_inv {pre : Nat} {u r : List Char} {n : Nat}
    (h : itemHdrStep.itemHdrAfterLetter pre u = some (r, n)) : r = [] ∧ pre ≤ n := by
  unfold itemHdrStep.itemHdrAfterLetter at h
  split at h
  · have := itemHdrAfterDot_inv h
    exact ⟨this.1, by omega⟩
  · exact absurd h (by simp)

theorem itemHdrStep_inv {u r : List Char} {n : Nat} (h : itemHdrStep u = some (r, n)) :
    r = [] ∧ 1 ≤ n := by
  simp only [itemHdrStep] at h
  split at h
  · split at h
    · exact absurd h (by simp)
    · split at h
      · exact absurd h (by simp)
      · split at h
        · have := itemHdrAfterLetter_inv h
          exact ⟨this.1, by omega⟩
        · have := itemHdrAfterLetter_inv h
          exact ⟨this.1, by omega⟩
        · rename_i c r4 _ _
          split at h
          · have := itemHdrAfterLetter_inv h
            exact ⟨this.1, by omega⟩
          · split at h
            · have := itemHdrAfterDot_inv h
              exact ⟨this.1, by omega⟩
            · exact absurd h (by simp)
        · exact absurd h (by simp)
  · exact absurd h (by simp)

theorem multiWsStep_inv {u r : List Char} {n : Nat} (h : multiWsStep u = some (r, n)) :
    (r = [] ∨ r = [' ']) ∧ 1 ≤ n := by
  unfold multiWsStep at h
  split at h
  · split at h
    · simp only [Option.some.injEq, Prod.mk.injEq] at h
      obtain ⟨hr, hn⟩ := h
      exact ⟨Or.inr hr.symm, by omega⟩
    · exact absurd h (by simp)
  · exact absurd h (by simp)

/-- The replacement text any of the scanners emits consists of spaces only. -/
def StepSpaces (step : List Char → Option (List Char × Nat)) : Prop :=
  ∀ u r n, step u = some (r, n) → ∀ c ∈ r, c = ' '

theorem stepSpaces_of_inv {step : List Char → Option (List Char × Nat)}
    (hinv : ∀ {u r : List Char} {n : Nat}, step u = some (r, n) → (r = [] ∨ r = [' ']) ∧ 1 ≤ n) :
    StepSpaces step := by
  intro u r n h c hc
  rcases (hinv h).1 with rfl | rfl
  · simp at hc
  · simpa using hc

/-- Dropping the spaces from a scanner output leaves a sublist of the input:
every scanner only deletes text or writes single spaces. -/
theorem scanSub_filter_space {step : List Char → Option (List Char × Nat)}
    (hstep : StepSpaces step) :
    ∀ (f : Nat) (s : List Char), ((scanSub step f s).filter (fun c => c != ' ')).Sublist s := by
  intro f
  induction f with
  | zero => intro s; simp only [scanSub]; exact List.filter_sublist s
  | succ f ih =>
      intro s
      cases s with
      | nil => simp [scanSub]
      | cons c t =>
          rcases hs : step (c :: t) with _ | ⟨r, n⟩
          · simp only [scanSub, hs]
            rw [List.filter_cons]
            by_cases hc : c = ' '
            · subst hc
              rw [if_neg (by decide)]
              exact (ih t).trans (List.sublist_cons_self ' ' t)
            · rw [if_pos (by simpa [bne_iff_ne] using hc)]
              exact List.cons_sublist_cons.mpr (ih t)
          · simp only [scanSub, hs]
            rw [List.filter_append]
            have hr : r.filter (fun c => c != ' ') = [] := by
              apply List.filter_eq_nil_iff.mpr
              intro a ha
              have := hstep _ _ _ hs a ha
              simp [this]
            rw [hr, List.nil_append]
            exact (ih _).trans (List.drop_sublist n (c :: t))

theorem runSub_filter_space {step : List Char → Option (List Char × Nat)}
    (hstep : StepSpaces step) (s : List Char) :
    ((runSub step s).filter (fun c => c != ' ')).Sublist s :=
  scanSub_filter_space hstep s.length s

/-- Every scanner emits at most one character per match and consumes at least
one, so passes never lengthen the text. -/
def StepShrinks (step : List Char → Option (List Char × Nat)) : Prop :=
  ∀ u r n, step u = some (r, n) → r.length ≤ 1 ∧ 1 ≤ n

theorem stepShrinks_of_inv {step : List Char → Option (List Char × Nat)}
    (hinv : ∀ {u r : List Char} {n : Nat}, step u = some (r, n) → (r = [] ∨ r = [' ']) ∧ 1 ≤ n) :
    StepShrinks step := by
  intro u r n h
  obtain ⟨hr, hn⟩ := hinv h
  rcases hr with rfl | rfl
  · exact ⟨by simp, hn⟩
  · exact ⟨by simp, hn⟩

theorem scanSub_length_le {step : List Char → Option (List Char × Nat)}
    (hstep : StepShrinks step) :
    ∀ (f : Nat) (s : List Char), (scanSub step f s).length ≤ s.length := by
  intro f
  induction f with
  | zero => intro s; simp [scanSub]
  | succ f ih =>
      intro s
      cases s with
      | nil => simp [scanSub]
      | cons c t =>
          rcases hs : step (c :: t) with _ | ⟨r, n⟩
          · simp only [scanSub, hs, List.length_cons]
            have := ih t
            omega
          · simp only [scanSub, hs, List.length_append]
            obtain ⟨h1, h1n⟩ := hstep _ _ _ hs
            have h2 := ih ((c :: t).drop n)
            rw [List.length_drop] at h2
            simp only [List.length_cons] at h2 ⊢
            omega

theorem scanSub_mem_space {step : List Char → Option (List Char × Nat)}
    (hstep : StepSpaces step) {f : Nat} {s : List Char} {a : Char}
    (ha : a ∈ scanSub step f s) : a = ' ' ∨ a ∈ s := by
  by_cases h : a = ' '
  · exact Or.inl h
  · refine Or.inr ?_
    have hmem : a ∈ (scanSub step f s).filter (fun c => c != ' ') :=
      List.mem_filter.mpr ⟨ha, by simpa using h⟩
    exact (scanSub_filter_space hstep f s).subset hmem

theorem pyStrip_sublist (l : List Char) : (pyStrip l).Sublist l := by
  unfold pyStrip
  have h1 : (((l.dropWhile pySpace).reverse.dropWhile pySpace)).Sublist
      ((l.dropWhile pySpace).reverse) := List.dropWhile_sublist pySpace
  have h2 := List.reverse_sublist.mpr h1
  rw [List.reverse_reverse] at h2
  exact h2.trans (List.dropWhile_sublist pySpace)

theorem stepSpaces_wsRun : StepSpaces wsRunStep :=
  stepSpaces_of_inv (fun h => wsRunStep_inv h)

theorem stepSpaces_tag : StepSpaces tagStep :=
  stepSpaces_of_inv (fun h => ⟨Or.inl (tagStep_inv h).1, (tagStep_inv h).2⟩)

theorem stepSpaces_nbsp : StepSpaces nbspStep :=
  stepSpaces_of_inv (fun h => nbspStep_inv h)

theorem stepSpaces_entity : StepSpaces entityStep :=
  stepSpaces_of_inv (fun h => ⟨Or.inl (entityStep_inv h).1, (entityStep_inv h).2⟩)

theorem stepSpaces_page : StepSpaces pageStep :=
  stepSpaces_of_inv (fun h => ⟨Or.inl (pageStep_inv h).1, (pageStep_inv h).2⟩)

theorem stepSpaces_num : StepSpaces numStep :=
  stepSpaces_of_inv (fun h => numStep_inv h)

theorem stepSpaces_toc : StepSpaces tocStep :=
  stepSpaces_of_inv (fun h => ⟨Or.inl (tocStep_inv h).1, (tocStep_inv h).2⟩)

theorem stepSpaces_itemHdr : StepSpaces itemHdrStep :=
  stepSpaces_of_inv (fun h => ⟨Or.inl (itemHdrStep_inv h).1, (itemHdrStep_inv h).2⟩)

theorem stepSpaces_multiWs : StepSpaces multiWsStep :=
  stepSpaces_of_inv (fun h => multiWsStep_inv h)

theorem stepShrinks_tag : StepShrinks tagStep :=
  stepShrinks_of_inv (fun h => ⟨Or.inl (tagStep_inv h).1, (tagStep_inv h).2⟩)

theorem stepShrinks_nbsp : StepShrinks nbspStep :=
  stepShrinks_of_inv (fun h => nbspStep_inv h)

theorem stepShrinks_entity : StepShrinks entityStep :=
  stepShrinks_of_inv (fun h => ⟨Or.inl (entityStep_inv h).1, (entityStep_inv h).2⟩)

theorem stepShrinks_page : StepShrinks pageStep :=
  stepShrinks_of_inv (fun h => ⟨Or.inl (pageStep_inv h).1, (pageStep_inv h).2⟩)

theorem stepShrinks_num : StepShrinks numStep :=
  stepShrinks_of_inv (fun h => numStep_inv h)

theorem stepShrinks_toc : StepShrinks tocStep :=
  stepShrinks_of_inv (fun h => ⟨Or.inl (tocStep_inv h).1, (tocStep_inv h).2⟩)

theorem stepShrinks_itemHdr : StepShrinks itemHdrStep :=
  stepShrinks_of_inv (fun h => ⟨Or.inl (itemHdrStep_inv h).1, (itemHdrStep_inv h).2⟩)

/- ### No markup pair survives the cleaning pass -/

theorem tagStep_none_of {c : Char} {t : List Char} (h : tagStep (c :: t) = none) :
    c ≠ '<' ∨ '>' ∉ t := by
  by_cases hc : c = '<'
  · subst hc
    right
    intro hm
    have hcon : t.contains '>' = true := by
      rw [show t.contains '>' = List.elem '>' t from rfl]
      exact List.elem_iff.mpr hm
    simp [tagStep, hcon] at h
    exact h hm
  · exact Or.inl hc

/-- After the tag scanner no `<` is ever followed (anywhere later) by a `>`,
which is exactly the absence of any `<...>` fragment. -/
theorem noTagPair_scanSub_tag :
    ∀ (f : Nat) (s : List Char), s.length ≤ f → ¬ (['<', '>'].Sublist (scanSub tagStep f s)) := by
  intro f
  induction f with
  | zero =>
      intro s hs
      have h0 : s = [] := List.length_eq_zero.mp (Nat.le_zero.mp hs)
      subst h0
      simp [scanSub]
  | succ f ih =>
      intro s hs
      cases s with
      | nil => simp [scanSub]
      | cons c t =>
          have ht : t.length ≤ f := by simp only [List.length_cons] at hs; omega
          rcases hstep : tagStep (c :: t) with _ | ⟨r, n⟩
          · simp only [scanSub, hstep]
            intro hsub
            rcases List.sublist_cons_iff.mp hsub with h1 | ⟨rr, hrr, hsub2⟩
            · exact ih t ht h1
            · have hc : '<' = c ∧ ['>'] = rr := by
                refine ⟨?_, ?_⟩ <;> injection hrr with h1 h2
              obtain ⟨hc1, hc2⟩ := hc
              subst hc1
              rw [← hc2] at hsub2
              have hmem : '>' ∈ scanSub tagStep f t := List.singleton_sublist.mp hsub2
              rcases scanSub_mem_space stepSpaces_tag hmem with h' | hmem2
              · exact absurd h' (by decide)
              · rcases tagStep_none_of hstep with hne | hnotin
                · exact hne rfl
                · exact hnotin hmem2
          · obtain ⟨hr, hn⟩ := tagStep_inv hstep
            subst hr
            simp only [scanSub, hstep, List.nil_append]
            apply ih
            rw [List.length_drop]
            simp only [List.length_cons] at hs ⊢
            omega

theorem noPair_scanSub {step : List Char → Option (List Char × Nat)}
    (hstep : StepSpaces step) {f : Nat} {s : List Char}
    (h : ¬ (['<', '>'].Sublist s)) : ¬ (['<', '>'].Sublist (scanSub step f s)) := by
  intro hsub
  apply h
  have h2 := List.Sublist.filter (fun c => c != ' ') hsub
  rw [show (['<', '>'].filter (fun c => c != ' ')) = ['<', '>'] from by decide] at h2
  exact h2.trans (scanSub_filter_space hstep f s)

theorem noPair_sublist {l s : List Char} (hsub : l.Sublist s)
    (h : ¬ (['<', '>'].Sublist s)) : ¬ (['<', '>'].Sublist l) :=
  fun hp => h (hp.trans hsub)

/-- Lines 100–107 leave no markup fragment: in the cleaned text no `<` is ever
followed by a `>`. -/
theorem cleanAll_noTagPair (t0 : List Char) : ¬ (['<', '>'].Sublist (cleanAll t0)) := by
  unfold cleanAll
  apply noPair_sublist (pyStrip_sublist _)
  apply noPair_scanSub stepSpaces_multiWs
  apply noPair_scanSub stepSpaces_itemHdr
  apply noPair_scanSub stepSpaces_toc
  apply noPair_scanSub stepSpaces_num
  apply noPair_scanSub stepSpaces_page
  apply noPair_scanSub stepSpaces_entity
  apply noPair_scanSub stepSpaces_nbsp
  exact noTagPair_scanSub_tag _ _ (le_refl _)

/- ### No digit survives the cleaning pass -/

theorem pySpace_eq_false_of_isDigit {c : Char} (h : c.isDigit = true) : pySpace c = false := by
  by_contra hws
  have hws' : pySpace c = true := by simpa using hws
  simp only [pySpace, Bool.or_eq_true, decide_eq_true_eq] at hws'
  rcases hws' with ((((rfl | rfl) | rfl) | rfl) | rfl) | rfl <;> exact absurd h (by decide)

theorem numStep_none_head {c : Char} {t : List Char} (h : numStep (c :: t) = none) :
    c.isDigit = false := by
  by_contra hd
  have hd' : c.isDigit = true := by simpa using hd
  have hws : pySpace c = false := pySpace_eq_false_of_isDigit hd'
  have h1 : (c :: t).takeWhile pySpace = [] := by
    simp [List.takeWhile_cons, hws]
  have h3 : (c :: t).takeWhile Char.isDigit = c :: t.takeWhile Char.isDigit := by
    simp [List.takeWhile_cons, hd']
  simp only [numStep, h1, List.length_nil, List.drop_zero, h3] at h
  simp at h

theorem noDigit_scanSub_num :
    ∀ (f : Nat) (s : List Char), s.length ≤ f →
      ∀ a ∈ scanSub numStep f s, a.isDigit = false := by
  intro f
  induction f with
  | zero =>
      intro s hs
      have h0 : s = [] := List.length_eq_zero.mp (Nat.le_zero.mp hs)
      subst h0
      simp [scanSub]
  | succ f ih =>
      intro s hs
      cases s with
      | nil => simp [scanSub]
      | cons c t =>
          have ht : t.length ≤ f := by simp only [List.length_cons] at hs; omega
          rcases hstep : numStep (c :: t) with _ | ⟨r, n⟩
          · intro a ha
            simp only [scanSub, hstep, List.mem_cons] at ha
            rcases ha with rfl | ha
            · exact numStep_none_head hstep
            · exact ih t ht a ha
          · intro a ha
            obtain ⟨hr, hn⟩ := numStep_inv hstep
            simp only [scanSub, hstep, List.mem_append] at ha
            rcases ha with ha | ha
            · rcases hr with rfl | rfl
              · simp at ha
              · simp only [List.mem_singleton] at ha
                subst ha
                decide
            · refine ih _ ?_ a ha
              rw [List.length_drop]
              simp only [List.length_cons] at hs ⊢
              omega

theorem noDigit_scanSub {step : List Char → Option (List Char × Nat)}
    (hstep : StepSpaces step) {f : Nat} {s : List Char}
    (h : ∀ a ∈ s, a.isDigit = false) : ∀ a ∈ scanSub step f s, a.isDigit = false := by
  intro a ha
  rcases scanSub_mem_space hstep ha with rfl | hmem
  · decide
  · exact h a hmem

theorem noDigit_sublist {l s : List Char} (hsub : l.Sublist s)
    (h : ∀ a ∈ s, a.isDigit = false) : ∀ a ∈ l, a.isDigit = false :=
  fun a ha => h a (hsub.subset ha)

/-- Line 104 removes every digit and no later step can reintroduce one. -/
theorem cleanAll_noDigit (t0 : List Char) : ∀ a ∈ cleanAll t0, a.isDigit = false := by
  unfold cleanAll
  apply noDigit_sublist (pyStrip_sublist _)
  apply noDigit_scanSub stepSpaces_multiWs
  apply noDigit_scanSub stepSpaces_itemHdr
  apply noDigit_scanSub stepSpaces_toc
  apply noDigit_scanSub_num
  refine le_trans (scanSub_length_le stepShrinks_page _ _) ?_
  refine le_trans (scanSub_length_le stepShrinks_entity _ _) ?_
  refine le_trans (scanSub_length_le stepShrinks_nbsp _ _) ?_
  exact scanSub_length_le stepShrinks_tag _ _

/- ### No run of two whitespace characters survives the cleaning pass -/

theorem scanSub_nil (step : List Char → Option (List Char × Nat)) (f : Nat) :
    scanSub step f [] = [] := by
  cases f <;> rfl

theorem multiWsStep_some {c : Char} {t r : List Char} {n : Nat}
    (h : multiWsStep (c :: t) = some (r, n)) :
    ∃ d t', t = d :: t' ∧ pySpace c = true ∧ pySpace d = true ∧ r = [' '] ∧
      n = 2 + (t'.takeWhile pySpace).length := by
  cases t with
  | nil => simp [multiWsStep] at h
  | cons d t' =>
      simp only [multiWsStep] at h
      split at h
      · rename_i hcd
        simp only [Option.some.injEq, Prod.mk.injEq] at h
        obtain ⟨hr, hn⟩ := h
        simp only [Bool.and_eq_true] at hcd
        exact ⟨d, t', rfl, hcd.1, hcd.2, hr.symm, hn.symm⟩
      · exact absurd h (by simp)

theorem scanSub_multi_head {f : Nat} {u : List Char} {e : Char}
    (hu : u.head? = some e) (he : pySpace e = false) :
    (scanSub multiWsStep f u).head? = some e := by
  cases u with
  | nil => simp at hu
  | cons c t =>
      simp only [List.head?_cons, Option.some.injEq] at hu
      subst hu
      cases f with
      | zero => rfl
      | succ f =>
          have hstep : multiWsStep (c :: t) = none := by
            cases t with
            | nil => rfl
            | cons d t' => simp [multiWsStep, he]
          simp [scanSub, hstep]

theorem head_dropWhile_false (p : Char → Bool) :
    ∀ (l : List Char) (c : Char), (l.dropWhile p).head? = some c → p c = false := by
  intro l
  induction l with
  | nil => intro c h; simp at h
  | cons a t ih =>
      intro c h
      by_cases hp : p a = true
      · rw [List.dropWhile_cons, if_pos hp] at h
        exact ih c h
      · rw [List.dropWhile_cons, if_neg hp] at h
        simp only [List.head?_cons, Option.some.injEq] at h
        subst h
        simpa using hp

theorem dropWhile_eq_drop_takeWhile (p : Char → Bool) :
    ∀ l : List Char, l.dropWhile p = l.drop (l.takeWhile p).length := by
  intro l
  induction l with
  | nil => rfl
  | cons c t ih =>
      by_cases h : p c = true
      · simp [List.dropWhile_cons, List.takeWhile_cons, h, ih]
      · simp [List.dropWhile_cons, List.takeWhile_cons, h]

theorem noWsPair_scanSub_multi :
    ∀ (f : Nat) (s : List Char), s.length ≤ f →
      List.Chain' (fun a b => ¬(pySpace a = true ∧ pySpace b = true))
        (scanSub multiWsStep f s) := by
  intro f
  induction f with
  | zero =>
      intro s hs
      have h0 : s = [] := List.length_eq_zero.mp (Nat.le_zero.mp hs)
      subst h0
      simp [scanSub]
  | succ f ih =>
      intro s hs
      cases s with
      | nil => simp [scanSub]
      | cons c t =>
          have ht : t.length ≤ f := by simp only [List.length_cons] at hs; omega
          rcases hstep : multiWsStep (c :: t) with _ | ⟨r, n⟩
          · simp only [scanSub, hstep]
            rw [List.chain'_cons']
            refine ⟨?_, ih t ht⟩
            intro y hy
            rintro ⟨hwc, hwy⟩
            cases t with
            | nil => rw [scanSub_nil] at hy; simp at hy
            | cons d t' =>
                have hd : pySpace d = false := by
                  by_contra hdd
                  have hdd' : pySpace d = true := by simpa using hdd
                  simp [multiWsStep, hwc, hdd'] at hstep
                have hh := scanSub_multi_head (f := f) (show (d :: t').head? = some d from rfl) hd
                rw [hh] at hy
                simp only [Option.mem_def, Option.some.injEq] at hy
                subst hy
                rw [hd] at hwy
                exact absurd hwy (by simp)
          · obtain ⟨d, t', rfl, hwc, hwd, hr, hn⟩ := multiWsStep_some hstep
            subst hr hn
            simp only [scanSub, hstep]
            have hdrop : (c :: d :: t').drop (2 + (t'.takeWhile pySpace).length)
                = t'.dropWhile pySpace := by
              rw [show 2 + (t'.takeWhile pySpace).length
                    = ((t'.takeWhile pySpace).length + 1) + 1 from by omega]
              rw [List.drop_succ_cons, List.drop_succ_cons, ← dropWhile_eq_drop_takeWhile]
            rw [hdrop]
            have hlen : (t'.dropWhile pySpace).length ≤ f := by
              have h1 : (t'.dropWhile pySpace).length ≤ t'.length :=
                List.Sublist.length_le (List.dropWhile_sublist pySpace)
              simp only [List.length_cons] at hs
              omega
            rw [show ([' '] ++ scanSub multiWsStep f (t'.dropWhile pySpace))
                  = ' ' :: scanSub multiWsStep f (t'.dropWhile pySpace) from rfl]
            rw [List.chain'_cons']
            refine ⟨?_, ih _ hlen⟩
            intro y hy
            rintro ⟨-, hwy⟩
            cases hu : t'.dropWhile pySpace with
            | nil => rw [hu, scanSub_nil] at hy; simp at hy
            | cons e u' =>
                have he : pySpace e = false := by
                  apply head_dropWhile_false pySpace t'
                  rw [hu]; rfl
                have hh := scanSub_multi_head (f := f)
                  (show (e :: u').head? = some e from rfl) he
                rw [hu, hh] at hy
                simp only [Option.mem_def, Option.some.injEq] at hy
                subst hy
                rw [he] at hwy
                exact absurd hwy (by simp)

theorem noWsPair_pyStrip {l : List Char}
    (h : List.Chain' (fun a b => ¬(pySpace a = true ∧ pySpace b = true)) l) :
    List.Chain' (fun a b => ¬(pySpace a = true ∧ pySpace b = true)) (pyStrip l) := by
  unfold pyStrip
  have h1 := h.suffix (List.dropWhile_suffix pySpace)
  have h2 : List.Chain' (fun a b => ¬(pySpace a = true ∧ pySpace b = true))
      ((l.dropWhile pySpace).reverse) := by
    rw [List.chain'_reverse]
    exact h1.imp (fun a b hab => fun hc => hab ⟨hc.2, hc.1⟩)
  have h3 := h2.suffix (List.dropWhile_suffix pySpace)
  rw [List.chain'_reverse]
  exact h3.imp (fun a b hab => fun hc => hab ⟨hc.2, hc.1⟩)

theorem pyStrip_head {l : List Char} {c : Char} (h : (pyStrip l).head? = some c) :
    pySpace c = false := by
  unfold pyStrip at h
  rw [List.head?_reverse] at h
  obtain ⟨pre, hpre⟩ := List.dropWhile_suffix (l := (l.dropWhile pySpace).reverse) pySpace
  have hY : ((l.dropWhile pySpace).reverse).getLast? = some c := by
    rw [← hpre, List.getLast?_append, h]
    rfl
  rw [List.getLast?_reverse] at hY
  exact head_dropWhile_false pySpace l c hY

theorem pyStrip_last {l : List Char} {c : Char} (h : (pyStrip l).getLast? = some c) :
    pySpace c = false := by
  unfold pyStrip at h
  rw [List.getLast?_reverse] at h
  exact head_dropWhile_false pySpace _ c h

/-- Line 107 and the final strip: in the cleaned text no two consecutive
characters are both whitespace. -/
theorem cleanAll_noWsPair (t0 : List Char) :
    List.Chain' (fun a b => ¬(pySpace a = true ∧ pySpace b = true)) (cleanAll t0) := by
  unfold cleanAll
  apply noWsPair_pyStrip
  apply noWsPair_scanSub_multi
  refine le_trans (scanSub_length_le stepShrinks_itemHdr _ _) ?_
  refine le_trans (scanSub_length_le stepShrinks_toc _ _) ?_
  refine le_trans (scanSub_length_le stepShrinks_num _ _) ?_
  refine le_trans (scanSub_length_le stepShrinks_page _ _) ?_
  refine le_trans (scanSub_length_le stepShrinks_entity _ _) ?_
  refine le_trans (scanSub_length_le stepShrinks_nbsp _ _) ?_
  exact scanSub_length_le stepShrinks_tag _ _

/-- The final strip leaves no leading whitespace. -/
theorem cleanAll_head {t0 : List Char} {c : Char} (h : (cleanAll t0).head? = some c) :
    pySpace c = false := by
  unfold cleanAll at h
  exact pyStrip_head h

/-- The final strip leaves no trailing whitespace. -/
theorem cleanAll_last {t0 : List Char} {c : Char} (h : (cleanAll t0).getLast? = some c) :
    pySpace c = false := by
  unfold cleanAll at h
  exact pyStrip_last h

/- ### The Extractor under explicit decompositions -/

theorem extractSection_inv {name doc t : List Char} (h : extractSection name doc = some t) :
    ∃ cap, sectionSlice name (normalizeDoc doc) = some cap ∧
      t = cleanAll (pyStrip cap) ∧ t ≠ [] := by
  unfold extractSection at h
  rcases hs : sectionSlice name (normalizeDoc doc) with _ | cap
  · rw [hs] at h
    simp at h
  · rw [hs] at h
    simp only at h
    split at h
    · simp at h
    · rename_i hne
      simp only [Option.some.injEq] at h
      subst h
      refine ⟨cap, rfl, rfl, ?_⟩
      intro h0
      exact hne (by rw [h0]; rfl)

/-- When no later boundary matches, the slice runs to the end of the
document. -/
theorem extractSection_to_end (name doc A H R : List Char)
    (hsplit : normalizeDoc doc = A ++ H ++ R)
    (hlen : H.length = name.length)
    (hH : ciStarts name (H ++ R) = true)
    (hfirst : ∀ j < A.length, ciStarts name ((normalizeDoc doc).drop j) = false)
    (hnob : ∀ j < (R.dropWhile pySpace).length,
        itemBoundaryAt ((R.dropWhile pySpace).drop j) = false)
    (hne : cleanAll (pyStrip (R.dropWhile pySpace)) ≠ []) :
    extractSection name doc = some (cleanAll (pyStrip (R.dropWhile pySpace))) := by
  have hslice : sectionSlice name (normalizeDoc doc) = some (R.dropWhile pySpace) := by
    rw [hsplit] at hfirst ⊢
    rw [sectionSlice_decomp name A H R hlen hH hfirst, findBoundary_eq_none _ hnob]
  unfold extractSection
  rw [hslice]
  simp only
  rw [if_neg (by simpa [List.isEmpty_iff] using hne)]

/-- When a boundary matches right after `M` and nowhere inside it, the slice
is exactly `M`. -/
theorem extractSection_between (name doc A H R M B : List Char)
    (hsplit : normalizeDoc doc = A ++ H ++ R)
    (hlen : H.length = name.length)
    (hH : ciStarts name (H ++ R) = true)
    (hfirst : ∀ j < A.length, ciStarts name ((normalizeDoc doc).drop j) = false)
    (hMB : R.dropWhile pySpace = M ++ B)
    (hMno : ∀ j < M.length, itemBoundaryAt ((M ++ B).drop j) = false)
    (hB : itemBoundaryAt B = true)
    (hne : cleanAll (pyStrip M) ≠ []) :
    extractSection name doc = some (cleanAll (pyStrip M)) := by
  have hfb : findBoundary (M ++ B) = some M.length := by
    apply findBoundary_eq_some
    · exact hMno
    · rw [List.drop_left]
      exact hB
  have hslice : sectionSlice name (normalizeDoc doc) = some M := by
    rw [hsplit] at hfirst ⊢
    rw [sectionSlice_decomp name A H R hlen hH hfirst, hMB, hfb]
    simp [List.take_left]
  unfold extractSection
  rw [hslice]
  simp only
  rw [if_neg (by simpa [List.isEmpty_iff] using hne)]

/-- When the section name does not occur, the Extractor fails. -/
theorem extractSection_none (name doc : List Char) (hname : name ≠ [])
    (habs : ∀ j < (normalizeDoc doc).length,
      ciStarts name ((normalizeDoc doc).drop j) = false) :
    extractSection name doc = none := by
  have hslice : sectionSlice name (normalizeDoc doc) = none := by
    unfold sectionSlice
    rw [ciFindIdx_eq_none hname _ habs]
  unfold extractSection
  rw [hslice]

/- ### A successful filing-regex search consumed each of its literals -/

theorem toksGo_lit_occurs :
    ∀ (toks : List Tok) (s : List Char) (st : CapSt) (r : Option (List Char)) (l : List Char),
      toksGo toks s st = some r → Tok.lit l ∈ toks → ciOccurs l s = true := by
  intro toks
  induction toks with
  | nil =>
      intro s st r l _ hmem
      simp at hmem
  | cons tk rest ih =>
      intro s st r l hgo hmem
      cases tk with
      | lit l' =>
          rcases hci : ciStarts l' s with _ | _
          · simp only [toksGo, hci, Bool.false_eq_true, if_false] at hgo
            exact absurd hgo (by simp)
          · simp only [toksGo, hci, if_true] at hgo
            rcases List.mem_cons.mp hmem with heq | hmem'
            · have hl : l = l' := by injection heq
              subst hl
              exact ciOccurs_of_ciStarts hci
            · exact ciOccurs_of_drop s l'.length (ih _ _ _ _ hgo hmem')
      | one p =>
          have hmem' : Tok.lit l ∈ rest := by
            rcases List.mem_cons.mp hmem with heq | hmem' <;> first | exact absurd heq (by simp) | exact hmem'
          cases s with
          | nil => simp [toksGo] at hgo
          | cons c t =>
              rcases hp : p c with _ | _
              · simp only [toksGo, hp, Bool.false_eq_true, if_false] at hgo
                exact absurd hgo (by simp)
              · simp only [toksGo, hp, if_true] at hgo
                exact ciOccurs_of_drop (c :: t) 1 (ih _ _ _ _ hgo hmem')
      | star p =>
          have hmem' : Tok.lit l ∈ rest := by
            rcases List.mem_cons.mp hmem with heq | hmem' <;> first | exact absurd heq (by simp) | exact hmem'
          simp only [toksGo] at hgo
          obtain ⟨k, -, hk⟩ := List.exists_of_findSome?_eq_some hgo
          exact ciOccurs_of_drop s k (ih _ _ _ _ hk hmem')
      | plus p =>
          have hmem' : Tok.lit l ∈ rest := by
            rcases List.mem_cons.mp hmem with heq | hmem' <;> first | exact absurd heq (by simp) | exact hmem'
          simp only [toksGo] at hgo
          obtain ⟨k, -, hk⟩ := List.exists_of_findSome?_eq_some hgo
          exact ciOccurs_of_drop s k (ih _ _ _ _ hk hmem')
      | lazyAny =>
          have hmem' : Tok.lit l ∈ rest := by
            rcases List.mem_cons.mp hmem with heq | hmem' <;> first | exact absurd heq (by simp) | exact hmem'
          simp only [toksGo] at hgo
          obtain ⟨k, -, hk⟩ := List.exists_of_findSome?_eq_some hgo
          exact ciOccurs_of_drop s k (ih _ _ _ _ hk hmem')
      | grpOpen =>
          have hmem' : Tok.lit l ∈ rest := by
            rcases List.mem_cons.mp hmem with heq | hmem' <;> first | exact absurd heq (by simp) | exact hmem'
          simp only [toksGo] at hgo
          exact ih _ _ _ _ hgo hmem'
      | grpClose =>
          have hmem' : Tok.lit l ∈ rest := by
            rcases List.mem_cons.mp hmem with heq | hmem' <;> first | exact absurd heq (by simp) | exact hmem'
          simp only [toksGo] at hgo
          split at hgo
          · exact ih _ _ _ _ hgo hmem'
          · exact absurd hgo (by simp)

theorem reSearch_lit_occurs {toks : List Tok} {r : Option (List Char)} {l : List Char} :
    ∀ s : List Char, reSearch toks s = some r → Tok.lit l ∈ toks → ciOccurs l s = true := by
  intro s
  induction s with
  | nil =>
      intro h hm
      exact toksGo_lit_occurs toks [] .pre r l h hm
  | cons c t ih =>
      intro h hm
      simp only [reSearch] at h
      rcases hgo : toksGo toks (c :: t) CapSt.pre with _ | rr
      · rw [hgo] at h
        simp only at h
        have := ih h hm
        simp [ciOccurs, this]
      · rw [hgo] at h
        exact toksGo_lit_occurs toks (c :: t) .pre rr l hgo hm

theorem filingSearch_lit_occurs {listing : List Char} {year : Nat} {u l : List Char}
    (h : filingSearch listing year = some u) (hmem : Tok.lit l ∈ filingToks year) :
    ciOccurs l listing = true := by
  unfold filingSearch at h
  rcases hr : reSearch (filingToks year) listing with _ | rr
  · rw [hr] at h
    simp at h
  · exact reSearch_lit_occurs listing hr hmem

theorem yearTok_mem (year : Nat) :
    Tok.lit ((toString year).data ++ "-".data) ∈ filingToks year := by
  simp [filingToks]

theorem archiveTok_mem (year : Nat) :
    Tok.lit "/Archives\\/edgar\\/data\\/".data ∈ filingToks year := by
  simp [filingToks]

/-- The Locator finds nothing when the requested year (followed by a dash)
appears nowhere in the listing. -/
theorem filingSearch_eq_none_of_no_year {listing : List Char} {year : Nat}
    (h : ciOccurs ((toString year).data ++ "-".data) listing = false) :
    filingSearch listing year = none := by
  rcases hfs : filingSearch listing year with _ | u
  · rfl
  · exact absurd (filingSearch_lit_occurs hfs (yearTok_mem year)) (by simp [h])

/-- The Locator finds nothing when the backslash-escaped Archives path literal
demanded by its pattern appears nowhere in the listing. -/
theorem filingSearch_eq_none_of_no_backslash_path {listing : List Char} {year : Nat}
    (h : ciOccurs "/Archives\\/edgar\\/data\\/".data listing = false) :
    filingSearch listing year = none := by
  rcases hfs : filingSearch listing year with _ | u
  · rfl
  · exact absurd (filingSearch_lit_occurs hfs (archiveTok_mem year)) (by simp [h])

/- ### Concrete fixtures -/

/-- A standard EDGAR listing row: form 10-K, a document link under
/Archives/edgar/data/ ending in .htm, and a 2024 filing date. -/
def standardListing : List Char :=
  "<tr><td>10-K</td><td><a href=\"/Archives/edgar/data/320193/aapl-10k.htm\">Documents</a></td><td>2024-02-10</td></tr>".data

/-- A listing row whose href carries the backslash-escaped path the filing
regex demands, with form 10-K but a 2023 filing date. -/
def crossRow2023 : List Char :=
  "<tr><td>10-K</td><td><a href=\"/Archives\\/edgar\\/data\\/a.htm\">x</a></td><td>2023-01-01</td></tr>".data

/-- A second row with a 2024 date but form 10-Q and no document link. -/
def crossRow2024 : List Char :=
  "<tr><td>10-Q</td><td>y</td><td>2024-02-10</td></tr>".data

def crossListing : List Char := crossRow2023 ++ crossRow2024

def sectionBusiness : List Char := "Item 1. Business".data

/-- A document whose section body contains a digit. -/
def docBusiness3 : List Char :=
  "Item 1. Business We have 3 products. Item 1A. Risk Factors More.".data

/-- A document in which deleting the numeric entity glues the letters back
into a literal `&nbsp;`. -/
def docNbsp : List Char :=
  "Item 1. Business &nbs&#12;p; tail Item 1A. Risk Factors x".data

/-- A document in which the target section is the last section. -/
def docToEnd : List Char := "Intro Item 1. Business We make rockets.".data

/-- A full filing document with a title and a terminated section. -/
def docFull : List Char :=
  "<title>Acme Corp 10-K 2024</title> Item 1. Business We make things. Item 1A. Risk Factors x".data

/-- The filing regex does match the two-row listing across row boundaries,
capturing the (backslashed) link of the 2023 row while taking the date from
the 2024 row. -/
theorem filingSearch_crossListing :
    filingSearch crossListing 2024 = some "/Archives\\/edgar\\/data\\/a.htm".data := by
  decide

/-- A full successful run of the pipeline on the fixtures. -/
theorem get_10k_section_run :
    get_10k_section ⟨.ok crossListing, .ok docFull⟩ "naut".data 2024 sectionBusiness
      = (some "We make things.".data, "Acme Corp".data) := by
  decide

/- ### Nonempty messages -/

theorem errorMsg_ne_nil (e : List Char) : errorMsg e ≠ [] := by
  unfold errorMsg
  intro h
  rcases List.append_eq_nil.mp h with ⟨-, h2⟩
  exact absurd h2 (by decide)

theorem notFoundMsg_ne_nil (ticker : List Char) (year : Nat) : notFoundMsg ticker year ≠ [] := by
  unfold notFoundMsg
  intro h
  rcases List.append_eq_nil.mp h with ⟨-, h2⟩
  exact absurd h2 (by decide)

theorem couldNotExtractMsg_ne_nil (sectionName : List Char) :
    couldNotExtractMsg sectionName ≠ [] := by
  unfold couldNotExtractMsg
  intro h
  rcases List.append_eq_nil.mp h with ⟨-, h2⟩
  exact absurd h2 (by decide)

/- ### Inversion of a successful pipeline run -/

theorem get_10k_section_success_inv {env : BrowseEnv} {ticker sectionName t nm : List Char}
    {year : Nat} (h : get_10k_section env ticker year sectionName = (some t, nm)) :
    ∃ lst doc, env.listing = .ok lst ∧ env.filingDoc = .ok doc ∧
      extractSection sectionName doc = some t ∧ nm = companyName doc ticker := by
  rcases env with ⟨lst?, doc?⟩
  cases lst? with
  | error e => simp [get_10k_section] at h
  | ok lst =>
      rcases hfs : filingSearch lst year with _ | p
      · simp [get_10k_section, hfs] at h
      · cases doc? with
        | error e => simp [get_10k_section, hfs] at h
        | ok doc =>
            rcases hext : extractSection sectionName doc with _ | u
            · simp [get_10k_section, hfs, hext] at h
            · simp only [get_10k_section, hfs, hext, Prod.mk.injEq, Option.some.injEq] at h
              obtain ⟨rfl, rfl⟩ := h
              exact ⟨lst, doc, rfl, rfl, hext, rfl⟩

/- ### Claim theorems -/

/-- C1 (code bug): a listing page containing a standard conforming row — form
type 10-K, a document link `/Archives/edgar/data/320193/aapl-10k.htm`, filing
date `2024-02-10` matching the requested year — is rejected by the Locator,
which returns the "not found" failure instead of the resolved absolute URL:
the raw pattern fragment `\\/` on line 43 demands a literal backslash before
each inner slash of the Archives path, so no standard EDGAR href can match. -/
theorem C1_locator_rejects_standard_row :
    get_10k_section ⟨.ok standardListing, .ok docFull⟩ "AAPL".data 2024 sectionBusiness
      = (none, notFoundMsg "AAPL".data 2024) := by
  have hfs : filingSearch standardListing 2024 = none :=
    filingSearch_eq_none_of_no_backslash_path (by decide)
  simp [get_10k_section, hfs]

/-- Modelled from the words of claim C2: the text lying strictly between the
located section heading and the next item heading — heading strings excluded,
the slice stripped — with only the markup tags removed and nothing else
changed. -/
def claimBetweenTagsOnly (sectionName doc : List Char) : Option (List Char) :=
  (sectionSlice sectionName (normalizeDoc doc)).map (fun cap => runSub tagStep (pyStrip cap))

/-- C2 (counterexample): on a document whose section body contains the digit 3,
the Extractor output is not the between-headings text with only markup
removed — the cleaning pass also deletes the digit — so the claim fails as
stated. -/
theorem C2_counterexample :
    extractSection sectionBusiness docBusiness3 = some "We have products.".data ∧
    claimBetweenTagsOnly sectionBusiness docBusiness3 = some "We have 3 products.".data ∧
    ("We have products.".data : List Char) ≠ "We have 3 products.".data := by
  refine ⟨by decide, by decide, by decide⟩

/-- C2 (amended): when the whitespace-normalized document splits as
`A ++ H ++ R` with `H` the first case-insensitive occurrence of the section
name, and the capture region splits as `M ++ B` with `B` the first later
item-heading match, the Extractor returns exactly `M` — both heading strings
excluded — after the full cleaning pass of lines 100–107 (markup tags
removed, entities dropped, digit runs and page numbers replaced, Table of
Contents noise dropped, whitespace collapsed and stripped), provided the
cleaned slice is nonempty. -/
theorem C2_extractor_between_cleaned (sectionName doc A H R M B : List Char)
    (hsplit : normalizeDoc doc = A ++ H ++ R)
    (hlen : H.length = sectionName.length)
    (hH : ciStarts sectionName (H ++ R) = true)
    (hfirst : ∀ j < A.length, ciStarts sectionName ((normalizeDoc doc).drop j) = false)
    (hMB : R.dropWhile pySpace = M ++ B)
    (hMno : ∀ j < M.length, itemBoundaryAt ((M ++ B).drop j) = false)
    (hB : itemBoundaryAt B = true)
    (hne : cleanAll (pyStrip M) ≠ []) :
    extractSection sectionName doc = some (cleanAll (pyStrip M)) :=
  extractSection_between sectionName doc A H R M B hsplit hlen hH hfirst hMB hMno hB hne

/-- C2 witness at a concrete document. -/
theorem C2_extractor_between_cleaned_witness :
    extractSection sectionBusiness docBusiness3
      = some (cleanAll (pyStrip "We have 3 products. ".data)) :=
  C2_extractor_between_cleaned sectionBusiness docBusiness3 []
    "Item 1. Business".data " We have 3 products. Item 1A. Risk Factors More.".data
    "We have 3 products. ".data "Item 1A. Risk Factors More.".data
    (by decide) (by decide) (by decide) (by decide) (by decide) (by decide) (by decide)
    (by decide)

/-- C3 (counterexample): extraction succeeds on `docNbsp` and the returned
text contains a literal `&nbsp;` — removing the numeric entity `&#12;` glues
`&nbs` and `p;` back together — so "no literal &nbsp; sequence" fails. -/
theorem C3_counterexample :
    extractSection sectionBusiness docNbsp = some "&nbsp; tail".data ∧
    (∃ u v : List Char, "&nbsp; tail".data = u ++ "&nbsp;".data ++ v) := by
  exact ⟨by decide, [], " tail".data, by decide⟩

/-- C3 (amended): on every input on which extraction succeeds the returned
text contains no markup fragment (no `<` is ever followed by a `>`) and no
decimal digit at all — hence in particular no page-number token. -/
theorem C3_cleaned_output_no_tags_no_digits (sectionName doc t : List Char)
    (h : extractSection sectionName doc = some t) :
    ¬ (['<', '>'].Sublist t) ∧ (∀ a ∈ t, a.isDigit = false) := by
  obtain ⟨cap, -, rfl, -⟩ := extractSection_inv h
  exact ⟨cleanAll_noTagPair _, cleanAll_noDigit _⟩

/-- C3 witness at a concrete document. -/
theorem C3_cleaned_output_no_tags_no_digits_witness :
    ¬ (['<', '>'].Sublist "We make things.".data) ∧
    (∀ a ∈ ("We make things.".data : List Char), a.isDigit = false) :=
  C3_cleaned_output_no_tags_no_digits sectionBusiness docFull "We make things.".data
    (by decide)

/-- C4 (confirmed): the pipeline never propagates an exception — every run,
including those whose fetches raise, returns either a full nonempty cleaned
section or `None` paired with a nonempty descriptive message. -/
theorem C4_total_failure_handling (env : BrowseEnv) (ticker sectionName : List Char)
    (year : Nat) :
    (∃ t nm, get_10k_section env ticker year sectionName = (some t, nm) ∧ t ≠ []) ∨
    (∃ msg, get_10k_section env ticker year sectionName = (none, msg) ∧ msg ≠ []) := by
  rcases env with ⟨lst?, doc?⟩
  cases lst? with
  | error e =>
      right
      exact ⟨errorMsg e, rfl, errorMsg_ne_nil e⟩
  | ok lst =>
      rcases hfs : filingSearch lst year with _ | p
      · right
        refine ⟨notFoundMsg ticker year, ?_, notFoundMsg_ne_nil ticker year⟩
        simp [get_10k_section, hfs]
      · cases doc? with
        | error e =>
            right
            refine ⟨errorMsg e, ?_, errorMsg_ne_nil e⟩
            simp [get_10k_section, hfs]
        | ok doc =>
            rcases hext : extractSection sectionName doc with _ | u
            · right
              refine ⟨couldNotExtractMsg sectionName, ?_,
                couldNotExtractMsg_ne_nil sectionName⟩
              simp [get_10k_section, hfs, hext]
            · left
              refine ⟨u, companyName doc ticker, ?_, ?_⟩
              · simp [get_10k_section, hfs, hext]
              · obtain ⟨cap, -, -, hne⟩ := extractSection_inv hext
                exact hne

/-- C5 (confirmed): when the section heading occurs and no later item-heading
pattern matches after it, the boundary is the end of the document: the
Extractor returns the (cleaned) text from just after the heading to the end. -/
theorem C5_extractor_to_document_end (sectionName doc A H R : List Char)
    (hsplit : normalizeDoc doc = A ++ H ++ R)
    (hlen : H.length = sectionName.length)
    (hH : ciStarts sectionName (H ++ R) = true)
    (hfirst : ∀ j < A.length, ciStarts sectionName ((normalizeDoc doc).drop j) = false)
    (hnob : ∀ j < (R.dropWhile pySpace).length,
        itemBoundaryAt ((R.dropWhile pySpace).drop j) = false)
    (hne : cleanAll (pyStrip (R.dropWhile pySpace)) ≠ []) :
    extractSection sectionName doc = some (cleanAll (pyStrip (R.dropWhile pySpace))) :=
  extractSection_to_end sectionName doc A H R hsplit hlen hH hfirst hnob hne

/-- C5 witness at a concrete document whose target section is last. -/
theorem C5_extractor_to_document_end_witness :
    extractSection sectionBusiness docToEnd
      = some (cleanAll (pyStrip ((" We make rockets.".data : List Char).dropWhile pySpace))) :=
  C5_extractor_to_document_end sectionBusiness docToEnd "Intro ".data
    "Item 1. Business".data " We make rockets.".data
    (by decide) (by decide) (by decide) (by decide) (by decide) (by decide)

/-- C6 (counterexample): a listing in which no single row satisfies both the
form-type and the requested-year condition still yields a document URL: the
dotall pattern matches across row boundaries, taking the link from the 2023
10-K row and the date from the 2024 non-10-K row. -/
theorem C6_counterexample :
    filingSearch (crossRow2023 ++ crossRow2024) 2024
      = some "/Archives\\/edgar\\/data\\/a.htm".data ∧
    ciOccurs "2024".data crossRow2023 = false ∧
    ciOccurs "10-K".data crossRow2024 = false :=
  ⟨filingSearch_crossListing, by decide, by decide⟩

/-- C6 (amended): whenever the listing does not contain the requested year
followed by a dash anywhere — in particular when no row carries a
requested-year filing date — the Locator returns the distinct "not found"
result with its explanatory message, and no error. -/
theorem C6_not_found_when_year_absent (lst ticker sectionName : List Char) (year : Nat)
    (fd : Except (List Char) (List Char))
    (h : ciOccurs ((toString year).data ++ "-".data) lst = false) :
    get_10k_section ⟨.ok lst, fd⟩ ticker year sectionName
      = (none, notFoundMsg ticker year) := by
  have hfs := filingSearch_eq_none_of_no_year h
  simp [get_10k_section, hfs]

/-- C6 witness at a concrete listing without the requested year. -/
theorem C6_not_found_when_year_absent_witness :
    get_10k_section ⟨.ok "<tr><td>10-K</td></tr>".data, .ok docFull⟩ "aapl".data 2024
      sectionBusiness = (none, notFoundMsg "aapl".data 2024) :=
  C6_not_found_when_year_absent "<tr><td>10-K</td></tr>".data "aapl".data sectionBusiness
    2024 (.ok docFull) (by decide)

/-- C7 (confirmed): the Extractor locates the first case-insensitive
occurrence of the exact section-name string in the normalized document, and
when no occurrence exists the pipeline returns the "could not extract"
failure — first component None — rather than a success. -/
theorem C7_section_not_found (lst doc ticker sectionName p : List Char) (year : Nat)
    (hname : sectionName ≠ [])
    (hloc : filingSearch lst year = some p) :
    (∀ i, ciFindIdx sectionName (normalizeDoc doc) = some i →
        ciStarts sectionName ((normalizeDoc doc).drop i) = true ∧
        ∀ j < i, ciStarts sectionName ((normalizeDoc doc).drop j) = false) ∧
    ((∀ j < (normalizeDoc doc).length,
        ciStarts sectionName ((normalizeDoc doc).drop j) = false) →
      get_10k_section ⟨.ok lst, .ok doc⟩ ticker year sectionName
        = (none, couldNotExtractMsg sectionName)) := by
  constructor
  · intro i hi
    exact ciFindIdx_first _ i hi
  · intro habs
    have hext := extractSection_none sectionName doc hname habs
    simp [get_10k_section, hloc, hext]

/-- C7 witness at a concrete document without the section heading. -/
theorem C7_section_not_found_witness :
    (∀ i, ciFindIdx sectionBusiness (normalizeDoc "Hello world.".data) = some i →
        ciStarts sectionBusiness ((normalizeDoc "Hello world.".data).drop i) = true ∧
        ∀ j < i, ciStarts sectionBusiness ((normalizeDoc "Hello world.".data).drop j) = false) ∧
    ((∀ j < (normalizeDoc "Hello world.".data).length,
        ciStarts sectionBusiness ((normalizeDoc "Hello world.".data).drop j) = false) →
      get_10k_section ⟨.ok crossListing, .ok "Hello world.".data⟩ "aapl".data 2024
        sectionBusiness = (none, couldNotExtractMsg sectionBusiness)) :=
  C7_section_not_found crossListing "Hello world.".data "aapl".data sectionBusiness
    "/Archives\\/edgar\\/data\\/a.htm".data 2024 (by decide) filingSearch_crossListing

/-- C8 (counterexample): the outbound requests the code constructs on lines 31
and 60 pass only a query string and a URL to the browsing tool; they carry no
User-Agent header. -/
theorem C8_counterexample :
    hasUserAgent (listingRequest "NAUT".data 2024) = false ∧
    hasUserAgent (docRequest (edgarCompanySearchUrl "NAUT".data)) = false :=
  ⟨rfl, rfl⟩

/-- C8 (amended): every outbound request of the pipeline carries an empty
header list — in particular no client-identifier header is ever set by this
code; any identification would have to come from the external browsing tool. -/
theorem C8_requests_carry_no_headers (ticker url : List Char) (year : Nat) :
    (listingRequest ticker year).headers = [] ∧ (docRequest url).headers = [] ∧
    hasUserAgent (listingRequest ticker year) = false ∧
    hasUserAgent (docRequest url) = false :=
  ⟨rfl, rfl, rfl, rfl⟩

/-- C9 (confirmed): every successful pipeline result contains no ASCII decimal
digit: line 104 replaces each digit run (with surrounding whitespace) by a
space, and no later step reintroduces a digit. -/
theorem C9_success_text_has_no_digits (env : BrowseEnv) (ticker sectionName t nm : List Char)
    (year : Nat) (h : get_10k_section env ticker year sectionName = (some t, nm)) :
    ∀ a ∈ t, a.isDigit = false := by
  obtain ⟨lst, doc, -, -, hext, -⟩ := get_10k_section_success_inv h
  obtain ⟨cap, -, rfl, -⟩ := extractSection_inv hext
  exact cleanAll_noDigit _

/-- C9 witness on a full concrete run, checked at a concrete character of the
returned text. -/
theorem C9_success_text_has_no_digits_witness :
    ('W' ∈ ("We make things.".data : List Char)) ∧ Char.isDigit 'W' = false :=
  ⟨by decide,
    C9_success_text_has_no_digits ⟨.ok crossListing, .ok docFull⟩ "naut".data sectionBusiness
      "We make things.".data "Acme Corp".data 2024 get_10k_section_run 'W' (by decide)⟩

/-- Lines 110–120 case analysis: the company name is the stripped title part
before the first 10-K marker, or the stripped full title, or the uppercased
ticker. -/
theorem companyName_cases (doc ticker : List Char) :
    companyName doc ticker = ticker.map Char.toUpper ∨
      ∃ ttl, titleSearch doc = some ttl ∧
        (companyName doc ticker = pyStrip ttl ∨
          ∃ g, tenKSplit ttl = some g ∧ companyName doc ticker = pyStrip g) := by
  unfold companyName
  rcases hts : titleSearch doc with _ | ttl
  · left
    rfl
  · right
    refine ⟨ttl, rfl, ?_⟩
    show ((match tenKSplit ttl with
          | some g => pyStrip g
          | none => pyStrip ttl) = pyStrip ttl) ∨
        ∃ g, tenKSplit ttl = some g ∧
          (match tenKSplit ttl with
            | some g => pyStrip g
            | none => pyStrip ttl) = pyStrip g
    rcases htk : tenKSplit ttl with _ | g
    · left
      rfl
    · right
      exact ⟨g, rfl, rfl⟩

/-- C10 (confirmed): every successful result is a nonempty text with no
leading or trailing whitespace and no two consecutive whitespace characters,
and the company name is derived from the document title or, failing that, is
the uppercased ticker. -/
theorem C10_success_invariants (env : BrowseEnv) (ticker sectionName t nm : List Char)
    (year : Nat) (h : get_10k_section env ticker year sectionName = (some t, nm)) :
    t ≠ [] ∧
    (∀ c, t.head? = some c → pySpace c = false) ∧
    (∀ c, t.getLast? = some c → pySpace c = false) ∧
    List.Chain' (fun a b => ¬(pySpace a = true ∧ pySpace b = true)) t ∧
    ∃ doc, env.filingDoc = Except.ok doc ∧ nm = companyName doc ticker ∧
      (nm = ticker.map Char.toUpper ∨
        ∃ ttl, titleSearch doc = some ttl ∧
          (nm = pyStrip ttl ∨ ∃ g, tenKSplit ttl = some g ∧ nm = pyStrip g)) := by
  obtain ⟨lst, doc, hlst, hdoc, hext, hnm⟩ := get_10k_section_success_inv h
  obtain ⟨cap, -, rfl, hne⟩ := extractSection_inv hext
  refine ⟨hne, fun c hc => cleanAll_head hc, fun c hc => cleanAll_last hc,
    cleanAll_noWsPair _, doc, hdoc, hnm, ?_⟩
  rw [hnm]
  exact companyName_cases doc ticker

/-- C10 witness on a full concrete run. -/
theorem C10_success_invariants_witness :
    ("We make things.".data : List Char) ≠ [] ∧
    (∀ c, ("We make things.".data : List Char).head? = some c → pySpace c = false) ∧
    (∀ c, ("We make things.".data : List Char).getLast? = some c → pySpace c = false) ∧
    List.Chain' (fun a b => ¬(pySpace a = true ∧ pySpace b = true)) "We make things.".data ∧
    ∃ doc, (BrowseEnv.mk (.ok crossListing) (.ok docFull)).filingDoc = Except.ok doc ∧
      ("Acme Corp".data : List Char) = companyName doc "naut".data ∧
      (("Acme Corp".data : List Char) = "naut".data.map Char.toUpper ∨
        ∃ ttl, titleSearch doc = some ttl ∧
          (("Acme Corp".data : List Char) = pyStrip ttl ∨
            ∃ g, tenKSplit ttl = some g ∧ ("Acme Corp".data : List Char) = pyStrip g)) :=
  C10_success_invariants ⟨.ok crossListing, .ok docFull⟩ "naut".data sectionBusiness
    "We make things.".data "Acme Corp".data 2024 get_10k_section_run
